import Mathlib

set_option maxRecDepth 8000

/- Shallow embedding of the chunking-and-indexing engine of the repository:
   `DocumentProcessor._chunk_text` in backend/document_processor/processor.py and the
   `SearchEngine` class in backend/search/engine.py. Text is a `List Char`; Python integers
   that may go negative are `Int`; numpy float vectors are `List ℚ`; a Python dict is an
   insertion-ordered association list; a raised exception is an `Option PyErr` alongside
   the state at the moment the exception escaped (Python mutations persist). -/

/-- Python whitespace predicate for the ASCII characters removed by `str.strip()`
(space, tab, newline, carriage return, vertical tab, form feed). -/
def pyIsSpace (c : Char) : Bool :=
  c = ' ' || c = '\t' || c = '\n' || c = '\r' || c = '\x0b' || c = '\x0c'

/-- Python `s.strip()` on a character list: drop trailing whitespace, then leading
whitespace. -/
def pyStrip (l : List Char) : List Char :=
  ((l.reverse.dropWhile pyIsSpace).reverse).dropWhile pyIsSpace

/-- Python slice-index normalization: a negative index counts from the end and clamps
at 0, a nonnegative one clamps at the length. -/
def normIdx (len : ℕ) (i : Int) : ℕ :=
  if i < 0 then ((len : Int) + i).toNat else min i.toNat len

/-- Python `text[a:b]` on a character list. -/
def pySlice (t : List Char) (a b : Int) : List Char :=
  (t.take (normIdx t.length b)).drop (normIdx t.length a)

/-- Whether `pat` occurs in `t` starting at position `p`. -/
def occursAtB (t pat : List Char) (p : ℕ) : Bool :=
  decide ((t.drop p).take pat.length = pat)

/-- Scan candidate positions `i, i - 1, ..., 0` for the rightmost occurrence of `pat`
at a position `≥ lo`. -/
def rfindDown (t pat : List Char) (lo : ℕ) : ℕ → Option ℕ
  | 0 => if decide (lo = 0) && occursAtB t pat 0 then some 0 else none
  | i + 1 =>
    if decide (lo ≤ i + 1) && occursAtB t pat (i + 1) then some (i + 1)
    else rfindDown t pat lo i

/-- Python `text.rfind(pat, lo, hi)`: the highest `p` with `lo' ≤ p` and
`p + pat.length ≤ hi'` at which `pat` occurs, else `-1`, where `lo'`, `hi'` are the
normalized bounds. -/
def pyRfind (t pat : List Char) (lo hi : Int) : Int :=
  let a := normIdx t.length lo
  let b := normIdx t.length hi
  if pat.length ≤ b then
    match rfindDown t pat a (b - pat.length) with
    | some p => (p : Int)
    | none => -1
  else -1

/-- One boundary computation of `DocumentProcessor._chunk_text` (processor.py lines
173-195): the chunk end for the window starting at `start`. -/
def chunkEnd (t : List Char) (size : ℕ) (start : Int) : Int :=
  let textLength : Int := t.length
  let e0 : Int := min (start + (size : Int)) textLength
  if e0 < textLength then
    let mid : Int := start + ((size / 2 : ℕ) : Int)
    let pb := pyRfind t ['\n', '\n'] start e0
    if pb ≠ -1 ∧ pb > mid then pb + 2
    else
      let lb := pyRfind t ['\n'] start e0
      if lb ≠ -1 ∧ lb > mid then lb + 1
      else
        let se := pyRfind t ['.', ' '] start e0
        if se ≠ -1 ∧ se > mid then se + 2
        else
          let wb := pyRfind t [' '] start e0
          if wb ≠ -1 ∧ wb > mid then wb + 1
          else e0
  else e0

/-- The `while start < text_length` loop of `_chunk_text` (processor.py lines 172-202),
run with explicit fuel; `none` means the fuel was exhausted before the loop finished. -/
def chunkLoop (t : List Char) (size overlap : ℕ) :
    ℕ → Int → List (List Char) → Option (List (List Char))
  | 0, _, _ => none
  | fuel + 1, start, acc =>
    if start < (t.length : Int) then
      let e := chunkEnd t size start
      let acc' := acc ++ [pyStrip (pySlice t start e)]
      let start' := e - (overlap : Int)
      if start' ≥ e then some acc'
      else chunkLoop t size overlap fuel start' acc'
    else some acc

/-- `DocumentProcessor._chunk_text` (processor.py lines 163-204). -/
def chunkText (t : List Char) (size overlap : ℕ) (fuel : ℕ) : Option (List (List Char)) :=
  if t = [] then some []
  else chunkLoop t size overlap fuel 0 []

/-- Rightmost position strictly below `hi` satisfying `ok` (declarative search helper
for stating the boundary rule). -/
def lastPosSat (ok : ℕ → Bool) (hi : ℕ) : Option ℕ :=
  ((List.range hi).filter ok).getLast?

/-- Keep a found position only when it lies strictly past the midpoint. -/
def qualifies (o : Option ℕ) (mid : ℕ) : Option ℕ :=
  o.bind (fun p => if mid < p then some p else none)

/-- Encode an optional found position the way `rfind` reports it: the position, or
`-1`. -/
def intOfPos : Option ℕ → Int
  | some p => (p : Int)
  | none => -1

/-- Advance the chunk end just past a chosen delimiter, or fall back. -/
def pickEnd (o : Option ℕ) (add fallback : ℕ) : ℕ :=
  match o with
  | some p => p + add
  | none => fallback

/-- Sentence terminators as the words of claim C8 read. -/
def sentenceTermB (c : Char) : Bool :=
  c = '.' || c = '!' || c = '?'

/-- Claim C8, case (c) as stated: a sentence terminator at `p` followed by a whitespace
character. -/
def termThenWsB (t : List Char) (p : ℕ) : Bool :=
  match t.get? p, t.get? (p + 1) with
  | some c1, some c2 => sentenceTermB c1 && pyIsSpace c2
  | _, _ => false

/-- The boundary rule exactly as claim C8 states it: in priority order a paragraph
break, a line break, a sentence terminator followed by whitespace, then a space; the
rightmost occurrence strictly past `start + size / 2` wins and the end moves just past
the delimiter; otherwise the chunk ends at the size boundary. -/
def claimChunkEnd (t : List Char) (size start : ℕ) : ℕ :=
  let e := min (start + size) t.length
  if e < t.length then
    let mid := start + size / 2
    pickEnd (qualifies (lastPosSat
        (fun p => decide (start ≤ p) && occursAtB t ['\n', '\n'] p && decide (p + 2 ≤ e)) e) mid) 2
      (pickEnd (qualifies (lastPosSat
          (fun p => decide (start ≤ p) && occursAtB t ['\n'] p && decide (p + 1 ≤ e)) e) mid) 1
        (pickEnd (qualifies (lastPosSat
            (fun p => decide (start ≤ p) && termThenWsB t p && decide (p + 2 ≤ e)) e) mid) 2
          (pickEnd (qualifies (lastPosSat
              (fun p => decide (start ≤ p) && occursAtB t [' '] p && decide (p + 1 ≤ e)) e) mid) 1
            e)))
  else e

/-- The boundary rule the code implements: the same prioritized cascade, but case (c)
is exactly a period followed by a space (the amended form of claim C8). -/
def amendedChunkEnd (t : List Char) (size start : ℕ) : ℕ :=
  let e := min (start + size) t.length
  if e < t.length then
    let mid := start + size / 2
    pickEnd (qualifies (lastPosSat
        (fun p => decide (start ≤ p) && occursAtB t ['\n', '\n'] p && decide (p + 2 ≤ e)) e) mid) 2
      (pickEnd (qualifies (lastPosSat
          (fun p => decide (start ≤ p) && occursAtB t ['\n'] p && decide (p + 1 ≤ e)) e) mid) 1
        (pickEnd (qualifies (lastPosSat
            (fun p => decide (start ≤ p) && occursAtB t ['.', ' '] p && decide (p + 2 ≤ e)) e) mid) 2
          (pickEnd (qualifies (lastPosSat
              (fun p => decide (start ≤ p) && occursAtB t [' '] p && decide (p + 1 ≤ e)) e) mid) 1
            e)))
  else e

/-- A document dictionary as `SearchEngine` handles it: keys `text`,
`metadata['doc_id']`, `metadata['chunk_id']`, `embedding`, `score`; `none` models an
absent key. -/
structure Doc where
  text : String
  docId : Option String
  chunkId : Option ℕ
  embedding : Option (List ℚ)
  score : Option ℚ
deriving DecidableEq

/-- `SearchEngine` state: the configured dimension, the FAISS `IndexFlatL2` contents,
the stored records, and `doc_ids_to_indices`. -/
structure SearchState where
  embedding_dim : ℕ
  index : List (List ℚ)
  documents : List Doc
  doc_ids_to_indices : List (String × ℕ)
deriving DecidableEq

/-- The Python exceptions `add_documents` can raise. -/
inductive PyErr where
  | keyError (k : String)
  | valueError
  | dimensionError
deriving DecidableEq

/-- The embeddings list comprehension feeding `np.array`; `none` when a document lacks
the `embedding` key (the comprehension raises `KeyError` before any mutation). -/
def allEmbeddings : List Doc → Option (List (List ℚ))
  | [] => some []
  | d :: rest =>
    match d.embedding, allEmbeddings rest with
    | some e, some es => some (e :: es)
    | _, _ => none

/-- Python dict update `m[k] = v`: replace in place when the key is present, else
append. -/
def dictSet : List (String × ℕ) → String → ℕ → List (String × ℕ)
  | [], k, v => [(k, v)]
  | (k', v') :: rest, k, v =>
    if k' = k then (k, v) :: rest else (k', v') :: dictSet rest k v

/-- Python dict lookup as an option. -/
def dictGet : List (String × ℕ) → String → Option ℕ
  | [], _ => none
  | (k', v') :: rest, k => if k' = k then some v' else dictGet rest k

/-- The stored copy of a document: every key except `embedding` (engine.py line 52). -/
def stripEmbedding (d : Doc) : Doc :=
  { d with embedding := none }

/-- The identity key `f"{doc_id}_{chunk_id}"` (engine.py line 58). -/
def uniqueId (docId : String) (chunkId : ℕ) : String :=
  docId ++ "_" ++ toString chunkId

/-- The record loop of `add_documents` (engine.py lines 50-59): append the stripped
record, then read `metadata['doc_id']` and `metadata['chunk_id']` (a missing key raises
after the append already happened), then update the identity mapping. -/
def addLoop (startIdx : ℕ) : List Doc → ℕ → SearchState → SearchState × Option PyErr
  | [], _, s => (s, none)
  | d :: rest, i, s =>
    let s1 := { s with documents := s.documents ++ [stripEmbedding d] }
    match d.docId with
    | none => (s1, some (PyErr.keyError "doc_id"))
    | some did =>
      match d.chunkId with
      | none => (s1, some (PyErr.keyError "chunk_id"))
      | some cid =>
        addLoop startIdx rest (i + 1)
          { s1 with doc_ids_to_indices := dictSet s1.doc_ids_to_indices (uniqueId did cid) (startIdx + i) }

/-- `SearchEngine.add_documents` (engine.py lines 32-59). The second component is the
exception that escaped, paired with the state at that point. A ragged embeddings batch
fails in `np.array(...).astype('float32')`; a uniform batch of the wrong dimension
fails inside `faiss.Index.add` before anything is appended. -/
def addDocuments (s : SearchState) (docs : List Doc) : SearchState × Option PyErr :=
  if docs = [] then (s, none)
  else
    match allEmbeddings docs with
    | none => (s, some (PyErr.keyError "embedding"))
    | some embs =>
      if embs.all (fun v => v.length == (embs.headD []).length) then
        if (embs.headD []).length = s.embedding_dim then
          addLoop s.documents.length docs 0 { s with index := s.index ++ embs }
        else (s, some PyErr.dimensionError)
      else (s, some PyErr.valueError)

/-- A freshly constructed `SearchEngine` with no saved artifacts (engine.py lines
21-30). -/
def initState (dim : ℕ) : SearchState :=
  { embedding_dim := dim, index := [], documents := [], doc_ids_to_indices := [] }

/-- States reachable from a fresh engine by successful `add_documents` calls. -/
inductive Reachable : SearchState → Prop where
  | init (dim : ℕ) : Reachable (initState dim)
  | add (s : SearchState) (docs : List Doc) (s' : SearchState) (h1 : Reachable s)
      (h2 : addDocuments s docs = (s', none)) : Reachable s'

/-- Append a key when it is new: how a Python dict's key sequence evolves under
assignment. -/
def insKey (acc : List String) (k : String) : List String :=
  if k ∈ acc then acc else acc ++ [k]

/-- The identity key of a document that carries both id fields. -/
def docKey (d : Doc) : String :=
  uniqueId (d.docId.getD "") (d.chunkId.getD 0)

/-- Position of the last document in a batch whose identity key is `k`. -/
def lastKeyPos : List Doc → String → Option ℕ
  | [], _ => none
  | d :: rest, k =>
    match lastKeyPos rest k with
    | some j => some (j + 1)
    | none =>
      match d.docId, d.chunkId with
      | some did, some cid => if uniqueId did cid = k then some 0 else none
      | _, _ => none

/-- Squared Euclidean distance, the metric of `faiss.IndexFlatL2`. -/
def sqDist (q v : List ℚ) : ℚ :=
  (List.zipWith (fun a b => (a - b) * (a - b)) q v).sum

/-- Distances from `q` to each indexed vector, labelled with ids `i, i + 1, ...`. -/
def distPairsAux (q : List ℚ) : List (List ℚ) → ℕ → List (ℚ × ℕ)
  | [], _ => []
  | v :: rest, i => (sqDist q v, i) :: distPairsAux q rest (i + 1)

/-- Insert into a list sorted by ascending distance. -/
def insertPair (p : ℚ × ℕ) : List (ℚ × ℕ) → List (ℚ × ℕ)
  | [] => [p]
  | q' :: rest => if p.1 < q'.1 then p :: q' :: rest else q' :: insertPair p rest

/-- Sort distance-labelled pairs by ascending distance. -/
def sortPairs (l : List (ℚ × ℕ)) : List (ℚ × ℕ) :=
  l.foldr insertPair []

/-- `faiss.IndexFlatL2.search`: the `k` nearest vectors in ascending squared-distance
order, padded with label `-1` when the index holds fewer than `k` vectors. -/
def faissSearch (index : List (List ℚ)) (q : List ℚ) (k : ℕ) : List (ℚ × Int) :=
  let found := (sortPairs (distPairsAux q index 0)).take k
  found.map (fun p => (p.1, (p.2 : Int))) ++
    List.replicate (k - found.length) ((0 : ℚ), (-1 : Int))

/-- The result loop of `SearchEngine.search` (engine.py lines 82-88): skip `-1` labels,
read the stored record, assign its `score` key in place (mutating the store), and
append that same record to the results; `none` models an `IndexError`. -/
def searchLoop : List (ℚ × Int) → SearchState → List Doc → Option (List Doc × SearchState)
  | [], s, res => some (res, s)
  | (d, idx) :: rest, s, res =>
    if idx = -1 then searchLoop rest s res
    else
      match s.documents.get? idx.toNat with
      | none => none
      | some doc =>
        searchLoop rest
          { s with documents := s.documents.set idx.toNat { doc with score := some (1 / (1 + d)) } }
          (res ++ [{ doc with score := some (1 / (1 + d)) }])

/-- `SearchEngine.search` (engine.py lines 61-90): results plus the state after the
call. -/
def searchFn (s : SearchState) (q : List ℚ) (topK : ℕ) : Option (List Doc × SearchState) :=
  if s.documents.length = 0 then some ([], s)
  else searchLoop (faissSearch s.index q (min topK s.documents.length)) s []

/-- The two artifacts `save_index` writes: the FAISS index file and the pickled
`(documents, doc_ids_to_indices)` pair. -/
structure Artifacts where
  indexData : List (List ℚ)
  docsData : List Doc
  mappingData : List (String × ℕ)
deriving DecidableEq

/-- `SearchEngine.save_index` (engine.py lines 92-112). -/
def saveIndex (s : SearchState) : Artifacts :=
  { indexData := s.index, docsData := s.documents, mappingData := s.doc_ids_to_indices }

/-- `SearchEngine.load_index` (engine.py lines 114-129): replace the index, the
documents and the mapping wholesale; `embedding_dim` is untouched. -/
def loadIndex (s : SearchState) (a : Artifacts) : SearchState :=
  { s with index := a.indexData, documents := a.docsData, doc_ids_to_indices := a.mappingData }

/-- The text "ab". -/
def textAB : List Char := ['a', 'b']

/-- The text "abcd". -/
def textABCD : List Char := ['a', 'b', 'c', 'd']

/-- A non-empty text consisting of three spaces. -/
def textSpaces : List Char := [' ', ' ', ' ']

/-- The text "abcdef.\tghijklmn": a period followed by a tab past the midpoint of a
size-10 window, and no period-space, newline or space anywhere in that window. -/
def textTab : List Char :=
  ['a', 'b', 'c', 'd', 'e', 'f', '.', '\t', 'g', 'h', 'i', 'j', 'k', 'l', 'm', 'n']

/-- A well-formed input document with key "d_0" and embedding `[1]`. -/
def docA : Doc :=
  { text := "alpha", docId := some "d", chunkId := some 0, embedding := some [(1 : ℚ)], score := none }

/-- A second well-formed input document with the same key "d_0" and embedding `[2]`. -/
def docB : Doc :=
  { text := "beta", docId := some "d", chunkId := some 0, embedding := some [(2 : ℚ)], score := none }

/-- A document whose metadata lacks `doc_id` but whose embedding is well-formed. -/
def docNoId : Doc :=
  { text := "gamma", docId := none, chunkId := some 0, embedding := some [(0 : ℚ)], score := none }

/-- A stored record (no embedding, no score yet). -/
def docStored : Doc :=
  { text := "delta", docId := some "d", chunkId := some 0, embedding := none, score := none }

/-- A consistent one-record store of dimension 1. -/
def stateOne : SearchState :=
  { embedding_dim := 1, index := [[(0 : ℚ)]], documents := [docStored],
    doc_ids_to_indices := [("d_0", 0)] }

/-- The store obtained by adding `docA` to a fresh dimension-1 engine. -/
def stateA : SearchState :=
  (addDocuments (initState 1) [docA]).1

/-- Helper for C1: once the cursor of the `_chunk_text` loop on "ab" (size 1000,
overlap 200) reaches -198 it never changes again, so the loop consumes any fuel. -/
theorem chunkLoop_textAB_stuck : ∀ fuel acc, chunkLoop textAB 1000 200 fuel (-198) acc = none := by
  intro fuel
  induction fuel with
  | zero => intro acc; rfl
  | succ n ih => intro acc; exact ih (acc ++ [pyStrip (pySlice textAB (-198) 2)])

/-- C1: the claim that `chunk(T, size, overlap)` always terminates for non-empty `T`
and valid `size > 0`, `0 ≤ overlap < size` is false of the code: on the text "ab" with
the default configuration size = 1000, overlap = 200, the guard `start >= end` never
fires (it requires `overlap ≤ 0`), the cursor sticks at -198 < len, and the loop never
returns, whatever the fuel. -/
theorem c1_chunk_never_terminates (fuel : ℕ) : chunkText textAB 1000 200 fuel = none := by
  cases fuel with
  | zero => rfl
  | succ n => exact chunkLoop_textAB_stuck n [pyStrip (pySlice textAB 0 2)]

/-- C2: reconstruction fails: on text "abcd" with the valid configuration size = 2,
overlap = 0, the loop breaks after the first chunk (with overlap 0 the guard
`start >= end` always fires), returning only ["ab"]; the concatenation "ab" is not
"abcd", and no whitespace trimming is involved since "abcd" has no whitespace. -/
theorem c2_reconstruction_fails (fuel : ℕ) :
    chunkText textABCD 2 0 (fuel + 1) = some [['a', 'b']] ∧
    [['a', 'b']].flatten ≠ textABCD ∧ pyStrip textABCD = textABCD := by
  refine ⟨rfl, by decide, by decide⟩

/-- C3 counterexample: adding two well-formed dimension-1 records that share the
identity key "d_0" leaves 2 records and 2 vectors but only 1 identity-index entry, so
`len(records) == len(identityIndex) == vectorCount` fails after this sequence of adds. -/
theorem c3_counterexample :
    (addDocuments (initState 1) [docA, docB]).2 = none ∧
    (addDocuments (initState 1) [docA, docB]).1.documents.length = 2 ∧
    (addDocuments (initState 1) [docA, docB]).1.index.length = 2 ∧
    (addDocuments (initState 1) [docA, docB]).1.doc_ids_to_indices.length = 1 := by
  decide

/-- C4: `add` is not atomic on failure: a record whose metadata lacks `doc_id` but
whose embedding is well-formed of the configured dimension makes `add_documents` raise
`KeyError('doc_id')` after the vector was already added to the index and the record
already appended, leaving 1 vector, 1 record and 0 identity entries instead of the
pre-add (0, 0, 0) state. -/
theorem c4_partial_append :
    (addDocuments (initState 1) [docNoId]).2 = some (PyErr.keyError "doc_id") ∧
    (addDocuments (initState 1) [docNoId]).1.documents.length = 1 ∧
    (addDocuments (initState 1) [docNoId]).1.index.length = 1 ∧
    (addDocuments (initState 1) [docNoId]).1.doc_ids_to_indices = [] := by
  decide

/-- C7: `search` is not read-only: `doc['score'] = ...` assigns into the stored record
dict itself, so searching a one-record store writes `score = 1` into the stored record
and the record list is observably changed. -/
theorem c7_search_mutates_store :
    searchFn stateOne [(0 : ℚ)] 1 =
      some ([{ docStored with score := some 1 }],
            { stateOne with documents := [{ docStored with score := some 1 }] }) ∧
    ({ docStored with score := some 1 } : Doc) ≠ docStored := by
  constructor
  · have h : (1 : ℚ) / (1 + sqDist [(0 : ℚ)] [(0 : ℚ)]) = 1 := by
      simp [sqDist]
    calc searchFn stateOne [(0 : ℚ)] 1
        = some ([{ docStored with score := some (1 / (1 + sqDist [(0 : ℚ)] [(0 : ℚ)])) }],
                { stateOne with
                  documents := [{ docStored with
                    score := some (1 / (1 + sqDist [(0 : ℚ)] [(0 : ℚ)])) }] }) := rfl
      _ = some ([{ docStored with score := some 1 }],
                { stateOne with documents := [{ docStored with score := some 1 }] }) := by
          rw [h]
  · simp [docStored]

/-- C8 counterexample: on the window "abcdef.\tghijklmn" with size 10 and start 0 the
claim's rule fires on the sentence terminator '.' at position 6 (followed by the
whitespace '\t') and predicts end 8, but the code looks only for the two-character
substring ". " and, finding no qualifying delimiter at all, hard-cuts at the size
boundary 10. -/
theorem c8_counterexample :
    chunkEnd textTab 10 0 ≠ ((claimChunkEnd textTab 10 0 : ℕ) : Int) ∧
    chunkEnd textTab 10 0 = 10 ∧ claimChunkEnd textTab 10 0 = 8 := by
  decide

/-- C9 counterexample: the non-empty all-whitespace text "   " with the valid
configuration size = 2, overlap = 0 makes the chunker emit the empty string: the first
window "  " strips to "" and is appended to the result. -/
theorem c9_counterexample :
    textSpaces ≠ [] ∧ chunkText textSpaces 2 0 5 = some [[]] := by
  decide

/-- Helper for C5: the result list and resulting record list of the search loop depend
only on the record list of the state, not on the other fields. -/
theorem searchLoop_congr (neigh : List (ℚ × Int)) :
    ∀ (s1 s2 : SearchState) (res : List Doc), s1.documents = s2.documents →
      Option.map (fun r => (r.1, r.2.documents)) (searchLoop neigh s1 res) =
      Option.map (fun r => (r.1, r.2.documents)) (searchLoop neigh s2 res) := by
  induction neigh with
  | nil => intro s1 s2 res h; simp [searchLoop, h]
  | cons p rest ih =>
    intro s1 s2 res h
    obtain ⟨d, idx⟩ := p
    by_cases hidx : idx = -1
    · simp only [searchLoop, if_pos hidx]
      exact ih s1 s2 res h
    · simp only [searchLoop, if_neg hidx, h]
      cases hget : s2.documents.get? idx.toNat with
      | none => rfl
      | some doc => exact ih _ _ _ (by simp [h])

/-- C5: `save_index` followed by `load_index` (into any store instance) reproduces an
observably identical store: the same records, the same identity index, the same vector
index, and the same ranked search results for every query vector and every `top_k`. -/
theorem c5_save_load_roundtrip (s fresh : SearchState) :
    (loadIndex fresh (saveIndex s)).documents = s.documents ∧
    (loadIndex fresh (saveIndex s)).doc_ids_to_indices = s.doc_ids_to_indices ∧
    (loadIndex fresh (saveIndex s)).index = s.index ∧
    ∀ (q : List ℚ) (topK : ℕ),
      Option.map Prod.fst (searchFn (loadIndex fresh (saveIndex s)) q topK) =
      Option.map Prod.fst (searchFn s q topK) := by
  refine ⟨rfl, rfl, rfl, ?_⟩
  intro q topK
  have hdoc : (loadIndex fresh (saveIndex s)).documents = s.documents := rfl
  have hind : (loadIndex fresh (saveIndex s)).index = s.index := rfl
  simp only [searchFn, hdoc, hind]
  by_cases hlen : s.documents.length = 0
  · simp [hlen]
  · rw [if_neg hlen, if_neg hlen]
    have h := searchLoop_congr (faissSearch s.index q (min topK s.documents.length))
      (loadIndex fresh (saveIndex s)) s [] hdoc
    have h2 := congrArg (Option.map Prod.fst) h
    simpa [Option.map_map, Function.comp] using h2

/-- Python dict lookup after update: the updated key reads the new value, every other
key is unchanged. -/
theorem dictGet_dictSet (m : List (String × ℕ)) (k k' : String) (v : ℕ) :
    dictGet (dictSet m k v) k' = if k = k' then some v else dictGet m k' := by
  induction m with
  | nil => simp [dictSet, dictGet]
  | cons kv rest ih =>
    obtain ⟨a, b⟩ := kv
    by_cases hak : a = k
    · subst hak
      simp only [dictSet, if_pos rfl, dictGet]
      by_cases hk' : a = k'
      · simp [hk']
      · simp [hk']
    · simp only [dictSet, if_neg hak, dictGet]
      by_cases hak' : a = k'
      · have : ¬ k = k' := fun hkk => hak (hkk ▸ hak')
        simp [hak', this]
      · simp [hak', ih]

/-- Updating a Python dict leaves the key sequence alone when the key is present and
appends it otherwise. -/
theorem keys_dictSet (m : List (String × ℕ)) (k : String) (v : ℕ) :
    (dictSet m k v).map Prod.fst = insKey (m.map Prod.fst) k := by
  induction m with
  | nil => simp [dictSet, insKey]
  | cons kv rest ih =>
    obtain ⟨a, b⟩ := kv
    by_cases hak : a = k
    · subst hak
      simp [dictSet, insKey]
    · simp only [dictSet, if_neg hak, List.map_cons, ih, insKey]
      have hka : ¬ k = a := fun hkk => hak hkk.symm
      by_cases hk : k ∈ rest.map Prod.fst
      · simp [hk, hka]
      · simp [hk, hka]

/-- The behavior of the record loop of `add_documents` on success: it only appends the
stripped records, leaves the vector index and dimension alone, and points each identity
key at the position of the last batch record carrying it. -/
theorem addLoop_spec (docs : List Doc) : ∀ (startIdx i : ℕ) (s s' : SearchState),
    addLoop startIdx docs i s = (s', none) →
    s'.index = s.index ∧ s'.embedding_dim = s.embedding_dim ∧
    s'.documents = s.documents ++ docs.map stripEmbedding ∧
    s'.doc_ids_to_indices.map Prod.fst =
      (docs.map docKey).foldl insKey (s.doc_ids_to_indices.map Prod.fst) ∧
    ∀ k, dictGet s'.doc_ids_to_indices k =
      match lastKeyPos docs k with
      | some j => some (startIdx + i + j)
      | none => dictGet s.doc_ids_to_indices k := by
  induction docs with
  | nil =>
    intro startIdx i s s' h
    simp only [addLoop, Prod.mk.injEq] at h
    obtain ⟨rfl, -⟩ := h
    exact ⟨rfl, rfl, by simp, rfl, fun k => by simp [lastKeyPos]⟩
  | cons d rest ih =>
    intro startIdx i s s' h
    cases hdid : d.docId with
    | none => simp [addLoop, hdid] at h
    | some did =>
      cases hcid : d.chunkId with
      | none => simp [addLoop, hdid, hcid] at h
      | some cid =>
        simp only [addLoop, hdid, hcid] at h
        obtain ⟨hind, hdim, hdocs, hkeys, hget⟩ := ih startIdx (i + 1) _ s' h
        refine ⟨hind, hdim, ?_, ?_, ?_⟩
        · rw [hdocs]; simp
        · rw [hkeys]
          simp only [List.map_cons, List.foldl_cons]
          have : docKey d = uniqueId did cid := by simp [docKey, hdid, hcid]
          rw [this, keys_dictSet]
        · intro k
          rw [hget k]
          have hset := dictGet_dictSet s.doc_ids_to_indices (uniqueId did cid) k (startIdx + i)
          cases hrest : lastKeyPos rest k with
          | some j =>
            simp only [lastKeyPos, hrest]
            have : startIdx + (i + 1) + j = startIdx + i + (j + 1) := by omega
            rw [this]
          | none =>
            simp only [lastKeyPos, hrest, hdid, hcid, hset]
            by_cases huid : uniqueId did cid = k
            · simp [huid, Nat.add_zero]
            · simp [huid]

/-- C10: a successful `add_documents` call only appends to the record list (earlier
records, duplicates included, all remain, in order), and afterwards each identity key
present in the batch maps to the position of the most recently added record bearing it,
while keys absent from the batch keep their previous mapping. -/
theorem c10_add_only_appends (s : SearchState) (docs : List Doc) (s' : SearchState)
    (h : addDocuments s docs = (s', none)) :
    s'.documents = s.documents ++ docs.map stripEmbedding ∧
    ∀ k, dictGet s'.doc_ids_to_indices k =
      match lastKeyPos docs k with
      | some j => some (s.documents.length + j)
      | none => dictGet s.doc_ids_to_indices k := by
  unfold addDocuments at h
  by_cases hd : docs = []
  · subst hd
    simp only [if_pos rfl, Prod.mk.injEq] at h
    obtain ⟨rfl, -⟩ := h
    exact ⟨by simp, fun k => by simp [lastKeyPos]⟩
  · rw [if_neg hd] at h
    split at h
    · simp at h
    · split at h
      · split at h
        · obtain ⟨-, -, hdocs, -, hget⟩ := addLoop_spec docs s.documents.length 0 _ s' h
          refine ⟨hdocs, fun k => ?_⟩
          rw [hget k]
          cases lastKeyPos docs k with
          | some j => simp
          | none => rfl
        · simp at h
      · simp at h

/-- Witness for C10 at a concrete input: adding `[docA, docB]` (which share the key
"d_0") to a fresh store appends both records and maps "d_0" to position 1. -/
theorem c10_witness :
    (addDocuments (initState 1) [docA, docB]).1.documents =
      (initState 1).documents ++ [docA, docB].map stripEmbedding ∧
    dictGet (addDocuments (initState 1) [docA, docB]).1.doc_ids_to_indices "d_0" =
      match lastKeyPos [docA, docB] "d_0" with
      | some j => some ((initState 1).documents.length + j)
      | none => dictGet (initState 1).doc_ids_to_indices "d_0" :=
  ⟨(c10_add_only_appends (initState 1) [docA, docB] _ rfl).1,
   (c10_add_only_appends (initState 1) [docA, docB] _ rfl).2 "d_0"⟩

/-- The embeddings batch extracted by `add_documents` is the `embedding` field of each
input document, in order. -/
theorem allEmbeddings_eq (docs : List Doc) :
    ∀ embs, allEmbeddings docs = some embs →
      embs = docs.map (fun d => d.embedding.getD []) := by
  induction docs with
  | nil =>
    intro embs h
    simp only [allEmbeddings, Option.some.injEq] at h
    simp [← h]
  | cons d rest ih =>
    intro embs h
    cases hde : d.embedding with
    | none => simp [allEmbeddings, hde] at h
    | some e =>
      cases hre : allEmbeddings rest with
      | none => simp [allEmbeddings, hde, hre] at h
      | some es =>
        simp only [allEmbeddings, hde, hre, Option.some.injEq] at h
        subst h
        simp [hde, ih es hre]

/-- Folding key insertions grows the key list by at most the number of insertions. -/
theorem foldl_insKey_length (l : List String) :
    ∀ acc : List String, (l.foldl insKey acc).length ≤ acc.length + l.length := by
  induction l with
  | nil => intro acc; simp
  | cons k rest ih =>
    intro acc
    have h1 : (insKey acc k).length ≤ acc.length + 1 := by
      unfold insKey; by_cases h : k ∈ acc <;> simp [h]
    have h2 := ih (insKey acc k)
    simp only [List.foldl_cons, List.length_cons]
    omega

/-- When no key repeats, folding key insertions appends every key. -/
theorem foldl_insKey_nodup (l : List String) :
    ∀ acc : List String, (acc ++ l).Nodup → l.foldl insKey acc = acc ++ l := by
  induction l with
  | nil => intro acc h; simp
  | cons k rest ih =>
    intro acc h
    have hk : k ∉ acc := fun hmem =>
      (List.nodup_append.mp h).2.2 hmem (List.mem_cons_self k rest)
    have hins : insKey acc k = acc ++ [k] := by simp [insKey, hk]
    simp only [List.foldl_cons, hins]
    have h2 : ((acc ++ [k]) ++ rest).Nodup := by simpa using h
    rw [ih (acc ++ [k]) h2]
    simp

/-- The store invariant maintained by successful adds: the records and the vectors are
the two co-indexed projections of one ingestion history, and the identity-index keys
are the first-occurrence sequence of the history's keys. -/
theorem reachable_inv (s : SearchState) (h : Reachable s) :
    ∃ hist : List Doc,
      s.documents = hist.map stripEmbedding ∧
      s.index = hist.map (fun d => d.embedding.getD []) ∧
      s.doc_ids_to_indices.map Prod.fst = (hist.map docKey).foldl insKey [] := by
  induction h with
  | init dim => exact ⟨[], rfl, rfl, rfl⟩
  | add s docs s' h1 h2 ih =>
    obtain ⟨hist, hdocs, hindex, hkeys⟩ := ih
    unfold addDocuments at h2
    by_cases hd : docs = []
    · subst hd
      rw [if_pos rfl] at h2
      simp only [Prod.mk.injEq] at h2
      obtain ⟨rfl, -⟩ := h2
      exact ⟨hist, by simpa using hdocs, by simpa using hindex, by simpa using hkeys⟩
    · rw [if_neg hd] at h2
      split at h2
      · simp at h2
      · rename_i embs hemb
        split at h2
        · split at h2
          · obtain ⟨hind, -, hdocs', hkeys', -⟩ :=
              addLoop_spec docs s.documents.length 0 _ s' h2
            refine ⟨hist ++ docs, ?_, ?_, ?_⟩
            · rw [hdocs']
              simp [hdocs]
            · rw [hind]
              have he := allEmbeddings_eq docs embs hemb
              simp [hindex, he]
            · rw [hkeys']
              simp [hkeys, List.foldl_append]
          · simp at h2
        · simp at h2

/-- C3 (amended): after any sequence of successful `add` calls the records and vectors
come from one common history — the Nth record is the stripped Nth ingested document and
the Nth vector its embedding, so `len(records) == vectorCount` always — while the
identity index has at most one entry per record, with equality exactly guaranteed when
the identity keys of the history are pairwise distinct. -/
theorem c3_amended_invariant (s : SearchState) (h : Reachable s) :
    ∃ hist : List Doc,
      s.documents = hist.map stripEmbedding ∧
      s.index = hist.map (fun d => d.embedding.getD []) ∧
      s.documents.length = s.index.length ∧
      s.doc_ids_to_indices.length ≤ s.documents.length ∧
      ((hist.map docKey).Nodup → s.doc_ids_to_indices.length = s.documents.length) := by
  obtain ⟨hist, h1, h2, h3⟩ := reachable_inv s h
  have hlenmap : s.doc_ids_to_indices.length = (s.doc_ids_to_indices.map Prod.fst).length := by
    simp
  refine ⟨hist, h1, h2, by simp [h1, h2], ?_, ?_⟩
  · rw [hlenmap, h3]
    have hfold := foldl_insKey_length (hist.map docKey) []
    simp only [List.length_nil, Nat.zero_add, List.length_map] at hfold
    simpa [h1] using hfold
  · intro hnd
    have heq := foldl_insKey_nodup (hist.map docKey) [] (by simpa using hnd)
    rw [hlenmap, h3, heq]
    simp [h1]

/-- Witness for C3 (amended) at a concrete reachable store: the store obtained by one
successful add of `[docA]` to a fresh dimension-1 engine. -/
theorem c3_amended_witness :
    Reachable stateA ∧
    (∃ hist : List Doc,
      stateA.documents = hist.map stripEmbedding ∧
      stateA.index = hist.map (fun d => d.embedding.getD []) ∧
      stateA.documents.length = stateA.index.length ∧
      stateA.doc_ids_to_indices.length ≤ stateA.documents.length ∧
      ((hist.map docKey).Nodup → stateA.doc_ids_to_indices.length = stateA.documents.length)) :=
  ⟨Reachable.add (initState 1) [docA] stateA (Reachable.init 1) rfl,
   c3_amended_invariant stateA (Reachable.add (initState 1) [docA] stateA (Reachable.init 1) rfl)⟩

/-- Squared Euclidean distances are nonnegative. -/
theorem sqDist_nonneg (q : List ℚ) : ∀ v, 0 ≤ sqDist q v := by
  induction q with
  | nil => intro v; simp [sqDist]
  | cons a q ih =>
    intro v
    cases v with
    | nil => simp [sqDist]
    | cons b v =>
      have h2 : 0 ≤ (a - b) * (a - b) := mul_self_nonneg _
      have h3 : 0 ≤ sqDist q v := ih v
      unfold sqDist at h3 ⊢
      simp only [List.zipWith_cons_cons, List.sum_cons]
      linarith

/-- Every labelled distance pair has a nonnegative distance and an id below the vector
count. -/
theorem distPairsAux_mem (q : List ℚ) (l : List (List ℚ)) :
    ∀ i p, p ∈ distPairsAux q l i → 0 ≤ p.1 ∧ p.2 < i + l.length := by
  induction l with
  | nil => intro i p hp; simp [distPairsAux] at hp
  | cons v rest ih =>
    intro i p hp
    simp only [distPairsAux, List.mem_cons] at hp
    rcases hp with rfl | hp
    · exact ⟨sqDist_nonneg q v, by simp⟩
    · obtain ⟨h1, h2⟩ := ih (i + 1) p hp
      refine ⟨h1, ?_⟩
      simp only [List.length_cons]
      omega

/-- Sorted insertion only inserts the given pair. -/
theorem insertPair_mem (p : ℚ × ℕ) (l : List (ℚ × ℕ)) :
    ∀ x ∈ insertPair p l, x = p ∨ x ∈ l := by
  induction l with
  | nil => intro x hx; simp only [insertPair, List.mem_singleton] at hx; exact Or.inl hx
  | cons q' rest ih =>
    intro x hx
    by_cases h : p.1 < q'.1
    · simp only [insertPair, if_pos h, List.mem_cons] at hx
      rcases hx with rfl | hx
      · exact Or.inl rfl
      · exact Or.inr (List.mem_cons.mpr hx)
    · simp only [insertPair, if_neg h, List.mem_cons] at hx
      rcases hx with rfl | hx
      · exact Or.inr (List.mem_cons_self _ _)
      · rcases ih x hx with rfl | h2
        · exact Or.inl rfl
        · exact Or.inr (List.mem_cons_of_mem _ h2)

/-- Sorted insertion preserves the ascending-distance ordering. -/
theorem insertPair_sorted (p : ℚ × ℕ) (l : List (ℚ × ℕ))
    (h : l.Pairwise (fun a b => a.1 ≤ b.1)) :
    (insertPair p l).Pairwise (fun a b => a.1 ≤ b.1) := by
  induction l with
  | nil => simp [insertPair]
  | cons q' rest ih =>
    rcases List.pairwise_cons.mp h with ⟨hq, hrest⟩
    by_cases hlt : p.1 < q'.1
    · simp only [insertPair, if_pos hlt]
      refine List.Pairwise.cons ?_ h
      intro x hx
      rcases List.mem_cons.mp hx with rfl | hx
      · exact le_of_lt hlt
      · exact le_trans (le_of_lt hlt) (hq x hx)
    · simp only [insertPair, if_neg hlt]
      refine List.Pairwise.cons ?_ (ih hrest)
      intro x hx
      rcases insertPair_mem p rest x hx with rfl | hx
      · exact le_of_not_lt hlt
      · exact hq x hx

/-- The insertion sort used to model the FAISS result ordering sorts by ascending
distance. -/
theorem sortPairs_sorted (l : List (ℚ × ℕ)) :
    (sortPairs l).Pairwise (fun a b => a.1 ≤ b.1) := by
  unfold sortPairs
  induction l with
  | nil => simp
  | cons p rest ih =>
    simp only [List.foldr_cons]
    exact insertPair_sorted p _ ih

/-- Sorting does not invent pairs. -/
theorem sortPairs_mem (l : List (ℚ × ℕ)) : ∀ x ∈ sortPairs l, x ∈ l := by
  unfold sortPairs
  induction l with
  | nil => intro x hx; simp at hx
  | cons p rest ih =>
    intro x hx
    simp only [List.foldr_cons] at hx
    rcases insertPair_mem p _ x hx with rfl | hx
    · exact List.mem_cons_self _ _
    · exact List.mem_cons_of_mem _ (ih x hx)

/-- The search result loop succeeds when every non-`-1` label is in range, appends one
scored record per real neighbor in order, and keeps the record count unchanged. -/
theorem searchLoop_spec (neigh : List (ℚ × Int)) :
    ∀ (s : SearchState) (res : List Doc),
    (∀ p ∈ neigh, p.2 ≠ -1 → p.2.toNat < s.documents.length) →
    ∃ res' s', searchLoop neigh s res = some (res ++ res', s') ∧
      res'.map Doc.score =
        (neigh.filter (fun p => p.2 ≠ -1)).map (fun p => some (1 / (1 + p.1))) ∧
      s'.documents.length = s.documents.length := by
  induction neigh with
  | nil =>
    intro s res h
    exact ⟨[], s, by simp [searchLoop], by simp, rfl⟩
  | cons p rest ih =>
    intro s res h
    obtain ⟨d, idx⟩ := p
    by_cases hidx : idx = -1
    · obtain ⟨res', s', heq, hmap, hlen⟩ := ih s res (fun p hp => h p (List.mem_cons_of_mem _ hp))
      refine ⟨res', s', ?_, ?_, hlen⟩
      · simpa [searchLoop, hidx] using heq
      · rw [hmap]
        simp [hidx]
    · have hlt : idx.toNat < s.documents.length := h (d, idx) (List.mem_cons_self _ _) hidx
      obtain ⟨doc, hdoc⟩ : ∃ doc, s.documents.get? idx.toNat = some doc := by
        cases hg : s.documents.get? idx.toNat with
        | none =>
          have := List.get?_eq_none.mp hg
          omega
        | some doc => exact ⟨doc, rfl⟩
      obtain ⟨res', s', heq, hmap, hlen⟩ :=
        ih { s with documents := s.documents.set idx.toNat { doc with score := some (1 / (1 + d)) } }
          (res ++ [{ doc with score := some (1 / (1 + d)) }])
          (fun p hp hne => by
            simpa using h p (List.mem_cons_of_mem _ hp) hne)
      refine ⟨{ doc with score := some (1 / (1 + d)) } :: res', s', ?_, ?_, ?_⟩
      · have hstep : searchLoop ((d, idx) :: rest) s res =
            searchLoop rest
              { s with documents := s.documents.set idx.toNat { doc with score := some (1 / (1 + d)) } }
              (res ++ [{ doc with score := some (1 / (1 + d)) }]) := by
          rw [searchLoop, if_neg hidx, hdoc]
        rw [hstep, heq]
        simp
      · rw [List.filter_cons]
        have hdec : (decide ((d, idx).2 ≠ -1)) = true := by simpa using hidx
        rw [hdec, if_pos rfl]
        simp only [List.map_cons]
        rw [hmap]
      · rw [hlen]
        simp

/-- C6: on any consistent store (one vector per record) and any `top_k ≥ 1`, `search`
returns at most `min(top_k, recordCount)` results, in non-increasing score order, and
every score is `1 / (1 + distance)` for a nonnegative squared distance, hence lies in
`(0, 1]`. -/
theorem c6_search_bounds (s : SearchState) (q : List ℚ) (topK : ℕ)
    (hlen : s.index.length = s.documents.length) (_htop : 1 ≤ topK) :
    ∃ res s', searchFn s q topK = some (res, s') ∧
      res.length ≤ min topK s.documents.length ∧
      (res.map Doc.score).Pairwise (fun a b => ∃ x y, a = some x ∧ b = some y ∧ y ≤ x) ∧
      ∀ doc ∈ res, ∃ dist : ℚ, 0 ≤ dist ∧ doc.score = some (1 / (1 + dist)) ∧
        0 < 1 / (1 + dist) ∧ 1 / (1 + dist) ≤ 1 := by
  by_cases hzero : s.documents.length = 0
  · exact ⟨[], s, by simp [searchFn, hzero], by simp, by simp, by simp⟩
  · have hfound_mem : ∀ p ∈ (sortPairs (distPairsAux q s.index 0)).take (min topK s.documents.length),
        0 ≤ p.1 ∧ p.2 < s.documents.length := by
      intro p hp
      have hp2 : p ∈ sortPairs (distPairsAux q s.index 0) :=
        (List.take_sublist _ _).subset hp
      have hp3 := sortPairs_mem _ p hp2
      obtain ⟨h1, h2⟩ := distPairsAux_mem q s.index 0 p hp3
      exact ⟨h1, by omega⟩
    have hv : ∀ p ∈ faissSearch s.index q (min topK s.documents.length),
        p.2 ≠ -1 → p.2.toNat < s.documents.length := by
      intro p hp hne
      unfold faissSearch at hp
      rcases List.mem_append.mp hp with hp | hp
      · obtain ⟨p0, hp0, rfl⟩ := List.mem_map.mp hp
        have := (hfound_mem p0 hp0).2
        simpa using this
      · rw [List.eq_of_mem_replicate hp] at hne
        exact absurd rfl hne
    obtain ⟨res', s', heq, hmap, hlen'⟩ :=
      searchLoop_spec (faissSearch s.index q (min topK s.documents.length)) s [] hv
    have hfilter : (faissSearch s.index q (min topK s.documents.length)).filter
          (fun p => p.2 ≠ -1) =
        ((sortPairs (distPairsAux q s.index 0)).take (min topK s.documents.length)).map
          (fun p => (p.1, (p.2 : Int))) := by
      unfold faissSearch
      rw [List.filter_append]
      have h1 : (((sortPairs (distPairsAux q s.index 0)).take (min topK s.documents.length)).map
            (fun p => (p.1, (p.2 : Int)))).filter (fun p => p.2 ≠ -1) =
          ((sortPairs (distPairsAux q s.index 0)).take (min topK s.documents.length)).map
            (fun p => (p.1, (p.2 : Int))) := by
        rw [List.filter_eq_self]
        intro a ha
        obtain ⟨p0, hp0, rfl⟩ := List.mem_map.mp ha
        simp only [decide_eq_true_eq]
        intro hcontra
        omega
      have h2 : (List.replicate
            (min topK s.documents.length -
              ((sortPairs (distPairsAux q s.index 0)).take (min topK s.documents.length)).length)
            ((0 : ℚ), (-1 : Int))).filter (fun p => p.2 ≠ -1) = [] := by
        rw [List.filter_eq_nil_iff]
        intro a ha
        rw [List.eq_of_mem_replicate ha]
        simp
      rw [h1, h2, List.append_nil]
    have hscore : res'.map Doc.score =
        ((sortPairs (distPairsAux q s.index 0)).take (min topK s.documents.length)).map
          (fun p => some (1 / (1 + p.1))) := by
      rw [hmap, hfilter, List.map_map]
      rfl
    refine ⟨res', s', ?_, ?_, ?_, ?_⟩
    · simp only [searchFn, if_neg hzero]
      rw [heq]
      simp
    · have hc := congrArg List.length hscore
      simp only [List.length_map] at hc
      rw [hc]
      simp only [List.length_take]
      omega
    · have hsorted : ((sortPairs (distPairsAux q s.index 0)).take
          (min topK s.documents.length)).Pairwise (fun a b => a.1 ≤ b.1) :=
        List.Pairwise.sublist (List.take_sublist _ _) (sortPairs_sorted _)
      have hpair2 : ((sortPairs (distPairsAux q s.index 0)).take
          (min topK s.documents.length)).Pairwise
            (fun a b => ∃ x y, some (1 / (1 + a.1)) = some x ∧
              some (1 / (1 + b.1)) = some y ∧ y ≤ x) := by
        refine List.Pairwise.imp_of_mem ?_ hsorted
        intro a b ha hb hab
        refine ⟨1 / (1 + a.1), 1 / (1 + b.1), rfl, rfl, ?_⟩
        have ha0 : 0 ≤ a.1 := (hfound_mem a ha).1
        have hpos : (0 : ℚ) < 1 + a.1 := by linarith
        exact one_div_le_one_div_of_le hpos (by linarith)
      rw [hscore]
      rw [List.pairwise_map]
      exact hpair2
    · intro doc hdoc
      have hm : doc.score ∈ res'.map Doc.score := List.mem_map_of_mem Doc.score hdoc
      rw [hscore] at hm
      obtain ⟨p0, hp0, hps⟩ := List.mem_map.mp hm
      have h0 : 0 ≤ p0.1 := (hfound_mem p0 hp0).1
      have hpos : (0 : ℚ) < 1 + p0.1 := by linarith
      refine ⟨p0.1, h0, hps.symm, ?_, ?_⟩
      · rw [one_div_pos]
        exact hpos
      · rw [div_le_one hpos]
        linarith

/-- Witness for C6 at a concrete consistent store (`stateOne`) with a concrete query
of the configured dimension and `top_k = 1`. -/
theorem c6_witness :
    stateOne.index.length = stateOne.documents.length ∧ 1 ≤ 1 ∧
    (∃ res s', searchFn stateOne [(0 : ℚ)] 1 = some (res, s') ∧
      res.length ≤ min 1 stateOne.documents.length ∧
      (res.map Doc.score).Pairwise (fun a b => ∃ x y, a = some x ∧ b = some y ∧ y ≤ x) ∧
      ∀ doc ∈ res, ∃ dist : ℚ, 0 ≤ dist ∧ doc.score = some (1 / (1 + dist)) ∧
        0 < 1 / (1 + dist) ∧ 1 / (1 + dist) ≤ 1) :=
  ⟨rfl, le_refl 1, c6_search_bounds stateOne [(0 : ℚ)] 1 rfl (le_refl 1)⟩

/-- The head surviving a `dropWhile` fails the dropped predicate. -/
theorem dropWhile_head_not (p : Char → Bool) (l : List Char) :
    ∀ a, (l.dropWhile p).head? = some a → p a = false := by
  induction l with
  | nil => intro a h; simp at h
  | cons c rest ih =>
    intro a h
    by_cases hc : p c
    · rw [List.dropWhile_cons, if_pos hc] at h
      exact ih a h
    · rw [List.dropWhile_cons, if_neg hc] at h
      have hca : c = a := by simpa using h
      subst hca
      exact Bool.eq_false_iff.mpr hc

/-- `dropWhile` keeps the last element unless it drops everything. -/
theorem dropWhile_getLast? (p : Char → Bool) (l : List Char) :
    l.dropWhile p = [] ∨ (l.dropWhile p).getLast? = l.getLast? := by
  induction l with
  | nil => exact Or.inl rfl
  | cons c rest ih =>
    by_cases hc : p c
    · rw [List.dropWhile_cons, if_pos hc]
      rcases ih with h | h
      · exact Or.inl h
      · cases hrest : rest.dropWhile p with
        | nil => exact Or.inl rfl
        | cons b bs =>
          right
          rw [hrest] at h
          rw [h]
          cases rest with
          | nil => simp [List.dropWhile] at hrest
          | cons r rs => exact (List.getLast?_cons_cons).symm
    · rw [List.dropWhile_cons, if_neg hc]
      exact Or.inr rfl

/-- A stripped chunk has no leading whitespace. -/
theorem pyStrip_head (l : List Char) :
    ∀ a, (pyStrip l).head? = some a → pyIsSpace a = false := by
  intro a h
  exact dropWhile_head_not pyIsSpace _ a h

/-- A stripped chunk has no trailing whitespace. -/
theorem pyStrip_last (l : List Char) :
    ∀ a, (pyStrip l).getLast? = some a → pyIsSpace a = false := by
  intro a h
  unfold pyStrip at h
  rcases dropWhile_getLast? pyIsSpace ((l.reverse.dropWhile pyIsSpace).reverse) with h2 | h2
  · rw [h2] at h; simp at h
  · rw [h2, List.getLast?_reverse] at h
    exact dropWhile_head_not pyIsSpace l.reverse a h

/-- Every chunk the `_chunk_text` loop appends is the strip of some window. -/
theorem chunkLoop_stripped (t : List Char) (size overlap : ℕ) :
    ∀ (fuel : ℕ) (start : Int) (acc cs : List (List Char)),
      (∀ c ∈ acc, ∃ l, c = pyStrip l) →
      chunkLoop t size overlap fuel start acc = some cs →
      ∀ c ∈ cs, ∃ l, c = pyStrip l := by
  intro fuel
  induction fuel with
  | zero => intro start acc cs hacc h; simp [chunkLoop] at h
  | succ n ih =>
    intro start acc cs hacc h
    rw [chunkLoop] at h
    by_cases hlt : start < (t.length : Int)
    · rw [if_pos hlt] at h
      simp only [] at h
      by_cases hbr : chunkEnd t size start - (overlap : Int) ≥ chunkEnd t size start
      · rw [if_pos hbr] at h
        obtain rfl : acc ++ [pyStrip (pySlice t start (chunkEnd t size start))] = cs := by
          simpa using h
        intro c hc
        rcases List.mem_append.mp hc with hc | hc
        · exact hacc c hc
        · rw [List.mem_singleton.mp hc]
          exact ⟨_, rfl⟩
      · rw [if_neg hbr] at h
        refine ih _ _ cs ?_ h
        intro c hc
        rcases List.mem_append.mp hc with hc | hc
        · exact hacc c hc
        · rw [List.mem_singleton.mp hc]
          exact ⟨_, rfl⟩
    · rw [if_neg hlt] at h
      obtain rfl : acc = cs := by simpa using h
      exact hacc

/-- C9 (amended): every chunk in a returned chunk list is fully trimmed — it has no
leading and no trailing whitespace character — but it may be the empty string (the
claim's non-emptiness part fails, see the counterexample). -/
theorem c9_amended (t : List Char) (size overlap fuel : ℕ) (cs : List (List Char))
    (h : chunkText t size overlap fuel = some cs) :
    ∀ c ∈ cs, (∀ a, c.head? = some a → pyIsSpace a = false) ∧
      (∀ a, c.getLast? = some a → pyIsSpace a = false) := by
  intro c hc
  unfold chunkText at h
  by_cases ht : t = []
  · rw [if_pos ht] at h
    obtain rfl : ([] : List (List Char)) = cs := by simpa using h
    simp at hc
  · rw [if_neg ht] at h
    obtain ⟨l, rfl⟩ := chunkLoop_stripped t size overlap fuel 0 [] cs (by simp) h c hc
    exact ⟨pyStrip_head l, pyStrip_last l⟩

/-- Witness for C9 (amended) at a concrete run that returns: "ab" with size 1000 and
overlap 0 yields the single trimmed chunk "ab". -/
theorem c9_amended_witness :
    chunkText textAB 1000 0 1 = some [['a', 'b']] ∧
    ∀ c ∈ [['a', 'b']], (∀ a, List.head? c = some a → pyIsSpace a = false) ∧
      (∀ a, c.getLast? = some a → pyIsSpace a = false) :=
  ⟨by decide, c9_amended textAB 1000 0 1 [['a', 'b']] (by decide)⟩

/-- The downward scan of `rfind` returns the last qualifying position below its start. -/
theorem rfindDown_eq (t pat : List Char) (lo : ℕ) :
    ∀ i, rfindDown t pat lo i =
      ((List.range (i + 1)).filter (fun p => decide (lo ≤ p) && occursAtB t pat p)).getLast? := by
  intro i
  induction i with
  | zero =>
    have hr : List.range 1 = [0] := rfl
    rw [hr]
    by_cases hlo : lo = 0
    · subst hlo
      by_cases hocc : occursAtB t pat 0
      · simp [rfindDown, hocc]
      · simp [rfindDown, hocc]
    · have hle : ¬ (lo ≤ 0) := by omega
      simp [rfindDown, hlo, hle]
  | succ n ih =>
    rw [List.range_succ, List.filter_append]
    by_cases hcond : (decide (lo ≤ n + 1) && occursAtB t pat (n + 1)) = true
    · rw [rfindDown, if_pos hcond]
      have hsing : List.filter (fun p => decide (lo ≤ p) && occursAtB t pat p) [n + 1] =
          [n + 1] := by
        simp [List.filter_cons, List.filter_nil, hcond]
      rw [hsing, List.getLast?_concat]
    · rw [rfindDown, if_neg hcond]
      have hsing : List.filter (fun p => decide (lo ≤ p) && occursAtB t pat p) [n + 1] =
          [] := by
        simp only [List.filter_cons, List.filter_nil]
        rw [if_neg (by simpa using hcond)]
      rw [hsing, List.append_nil, ih]

/-- Restricting a filtered range by the room a pattern of length `c` needs is the same
as shrinking the range. -/
theorem filter_range_window (hi c : ℕ) (hc : 1 ≤ c) (hch : c ≤ hi) (q : ℕ → Bool) :
    (List.range hi).filter (fun p => q p && decide (p + c ≤ hi)) =
      (List.range (hi - c + 1)).filter q := by
  have hra : List.range hi =
      List.range (hi - c + 1) ++ (List.range (c - 1)).map (fun x => (hi - c + 1) + x) := by
    conv_lhs => rw [show hi = (hi - c + 1) + (c - 1) by omega]
    exact List.range_add _ _
  rw [hra, List.filter_append]
  have hA : (List.range (hi - c + 1)).filter (fun p => q p && decide (p + c ≤ hi)) =
      (List.range (hi - c + 1)).filter q := by
    apply List.filter_congr
    intro x hx
    have hx' : x < hi - c + 1 := List.mem_range.mp hx
    have hd : (decide (x + c ≤ hi)) = true := by
      simp only [decide_eq_true_eq]
      omega
    rw [hd, Bool.and_true]
  have hB : ((List.range (c - 1)).map (fun x => (hi - c + 1) + x)).filter
      (fun p => q p && decide (p + c ≤ hi)) = [] := by
    rw [List.filter_eq_nil_iff]
    intro a ha
    obtain ⟨x, hx, rfl⟩ := List.mem_map.mp ha
    simp only [Bool.and_eq_true, decide_eq_true_eq, not_and]
    intro _
    omega
  rw [hA, hB, List.append_nil]

/-- Python `rfind` over a window of the text computes the rightmost qualifying
position of the declarative backward search. -/
theorem pyRfind_eq (t pat : List Char) (lo hi : ℕ) (hlo : lo ≤ t.length)
    (hhi : hi ≤ t.length) (hpat : 1 ≤ pat.length) :
    pyRfind t pat (lo : Int) (hi : Int) =
      intOfPos (lastPosSat
        (fun p => decide (lo ≤ p) && occursAtB t pat p && decide (p + pat.length ≤ hi)) hi) := by
  have hnlo : normIdx t.length (lo : Int) = lo := by
    unfold normIdx
    rw [if_neg (by omega)]
    rw [Int.toNat_natCast]
    exact min_eq_left hlo
  have hnhi : normIdx t.length (hi : Int) = hi := by
    unfold normIdx
    rw [if_neg (by omega)]
    rw [Int.toNat_natCast]
    exact min_eq_left hhi
  unfold pyRfind
  simp only [hnlo, hnhi]
  by_cases hc : pat.length ≤ hi
  · rw [if_pos hc, rfindDown_eq]
    unfold lastPosSat
    rw [filter_range_window hi pat.length hpat hc
      (fun p => decide (lo ≤ p) && occursAtB t pat p)]
    cases ((List.range (hi - pat.length + 1)).filter
        (fun p => decide (lo ≤ p) && occursAtB t pat p)).getLast? with
    | none => rfl
    | some p => rfl
  · rw [if_neg hc]
    unfold lastPosSat
    have hnil : (List.range hi).filter
        (fun p => decide (lo ≤ p) && occursAtB t pat p && decide (p + pat.length ≤ hi)) = [] := by
      rw [List.filter_eq_nil_iff]
      intro a ha
      have := List.mem_range.mp ha
      simp only [Bool.and_eq_true, decide_eq_true_eq, not_and]
      intro _ _
      omega
    rw [hnil]
    rfl

/-- One level of the boundary cascade: the `rfind`-style test against the midpoint
agrees with choosing the qualifying position declaratively. -/
theorem cascade_step (o : Option ℕ) (mid add restAmd : ℕ) (restCode : Int)
    (hrest : restCode = (restAmd : Int)) :
    (if intOfPos o ≠ -1 ∧ intOfPos o > ((mid : ℕ) : Int) then intOfPos o + (add : Int)
     else restCode) =
      ((pickEnd (qualifies o mid) add restAmd : ℕ) : Int) := by
  cases o with
  | none =>
    rw [if_neg (by simp [intOfPos])]
    simp [qualifies, pickEnd, hrest]
  | some p =>
    by_cases hq : mid < p
    · have h1 : intOfPos (some p) ≠ -1 := by simp [intOfPos]
      have h2 : intOfPos (some p) > ((mid : ℕ) : Int) := by
        simp only [intOfPos]
        exact_mod_cast hq
      rw [if_pos ⟨h1, h2⟩]
      have hsome : qualifies (some p) mid = some p := by simp [qualifies, hq]
      rw [hsome]
      simp [intOfPos, pickEnd]
    · have hcond : ¬ (intOfPos (some p) ≠ -1 ∧ intOfPos (some p) > ((mid : ℕ) : Int)) := by
        rintro ⟨-, h2⟩
        simp only [intOfPos] at h2
        omega
      rw [if_neg hcond]
      have hnone : qualifies (some p) mid = none := by simp [qualifies, hq]
      rw [hnone]
      exact hrest

/-- C8 (amended): in each chunking step whose candidate end is not the text end, the
code's boundary choice is exactly the prioritized declarative rule — paragraph break,
line break, a period followed by a space, then a space — where the rightmost occurrence
in the window strictly past `start + size / 2` wins and the end moves just past the
delimiter, and a hard cut at the size boundary happens when none qualifies. -/
theorem c8_amended_boundary (t : List Char) (size start : ℕ) (hstart : start < t.length) :
    chunkEnd t size (start : Int) = (amendedChunkEnd t size start : Int) := by
  have hcast : min ((start : Int) + (size : Int)) ((t.length : ℕ) : Int) =
      ((min (start + size) t.length : ℕ) : Int) := by
    push_cast
    rfl
  have hmid : (start : Int) + ((size / 2 : ℕ) : Int) = (((start + size / 2 : ℕ)) : Int) := by
    push_cast
    rfl
  have h1 := pyRfind_eq t ['\n', '\n'] start (min (start + size) t.length)
    (le_of_lt hstart) (min_le_right _ _) (by simp)
  have h2 := pyRfind_eq t ['\n'] start (min (start + size) t.length)
    (le_of_lt hstart) (min_le_right _ _) (by simp)
  have h3 := pyRfind_eq t ['.', ' '] start (min (start + size) t.length)
    (le_of_lt hstart) (min_le_right _ _) (by simp)
  have h4 := pyRfind_eq t [' '] start (min (start + size) t.length)
    (le_of_lt hstart) (min_le_right _ _) (by simp)
  simp only [List.length_cons, List.length_nil, Nat.zero_add, Nat.reduceAdd] at h1 h2 h3 h4
  unfold chunkEnd amendedChunkEnd
  simp only [hcast, hmid]
  by_cases hel : min (start + size) t.length < t.length
  · rw [if_pos (by exact_mod_cast hel), if_pos hel]
    rw [h1, h2, h3, h4]
    exact cascade_step _ _ 2 _ _ (cascade_step _ _ 1 _ _ (cascade_step _ _ 2 _ _
      (cascade_step _ _ 1 _ _ rfl)))
  · rw [if_neg (by exact_mod_cast hel), if_neg hel]

/-- Witness for C8 (amended) at a concrete step: the window of `textTab` at start 0
with size 10. -/
theorem c8_amended_witness :
    0 < textTab.length ∧ chunkEnd textTab 10 ((0 : ℕ) : Int) = (amendedChunkEnd textTab 10 0 : Int) :=
  ⟨by decide, c8_amended_boundary textTab 10 0 (by decide)⟩
